import Mathlib

/-!  Verification development for the dynamic backward slicer design and the
signature type-information module of the repository.

The first part models the Dynamic Backward Slicer.  The slicer implementation
itself is not among the available source files (only its test suite is), so
every definition of this part is modelled from the specification document, as
indicated by its doc comment.  The second part is a direct shallow embedding of
`pynguin/analyses/module/typeinformation.py`.
-/

/- ===================== Part A: the dynamic backward slicer ================ -/

/-- Modelled from the spec: the binding key, "the scoping-aware identity
(name + frame/owner/module) used to disambiguate same-named variables".
Three kinds: local variable (name, frame id), attribute (name, owner object
identity), cross-module / global name (name, defining-module identity).
The slicer sources are missing from the repository snapshot; only the test
suite `tests/slicer/test_dependencies.py` is present. -/
inductive BindingKey where
  | localVar (name : String) (frameId : Nat)
  | attrKey (name : String) (ownerId : Nat)
  | globalName (name : String) (moduleId : Nat)
deriving DecidableEq, Repr

/-- Modelled from the spec: an Occurrence is one concrete execution of an
instruction: `{instruction, frame_id, sequence_index, bound_operands}`.
`uses` and `defs` are the bound operands, split into the binding keys the
occurrence reads and the ones it defines.  `controlDep` records the result of
the control-dependence relation of the CFG: the sequence index of "the nearest
dominating branch occurrence in the same frame whose taken/not-taken outcome
determined that the occurrence's block executed at all", or `none` when the
occurrence's block executes unconditionally.  The CFG dominance computation
that produces this relation is abstracted into the recorded field. -/
structure Occurrence where
  seq : Nat
  instrId : Nat
  codeUnit : Nat
  frame : Nat
  uses : List BindingKey
  defs : List BindingKey
  controlDep : Option Nat
deriving DecidableEq, Repr

/-- Modelled from the spec: helper of `resolve_definition` keeping, of a
candidate definition and a previously found one, the one with the larger
sequence index. -/
def pickLater (a : Occurrence) : Option Occurrence → Option Occurrence
  | none => some a
  | some b => if a.seq < b.seq then some b else some a

/-- Modelled from the spec: `resolve_definition(use_occurrence, binding_key)`
"looks up the binding-key index, returns the occurrence with the largest
`sequence_index` strictly less than the use's index", or `none` when no
occurrence defining that binding key precedes the use. -/
def resolve_definition : List Occurrence → Nat → BindingKey → Option Occurrence
  | [], _, _ => none
  | o :: rest, u, k =>
    if k ∈ o.defs ∧ o.seq < u then pickLater o (resolve_definition rest u k)
    else resolve_definition rest u k

/-- Modelled from the spec: the state of the fixpoint worklist traversal of the
backward slicer: the worklist, the result set, and the incompleteness marker
recorded when some use's definition cannot be found in the trace. -/
structure SliceState where
  worklist : List Occurrence
  result : List Occurrence
  incomplete : Bool
deriving Repr

/-- Modelled from the spec: membership of a sequence index in the result set
(occurrences are deduplicated by their position in the trace). -/
def inRes (res : List Occurrence) (s : Nat) : Bool :=
  res.any (fun r => r.seq == s)

/-- Modelled from the spec: "if a definition is found and not already in the
result set, add it and push it onto the worklist". -/
def addOcc (st : SliceState) (d : Occurrence) : SliceState :=
  if inRes st.result d.seq then st
  else { st with result := d :: st.result, worklist := d :: st.worklist }

/-- Modelled from the spec: step 2 of the worklist algorithm: "for each operand
the occurrence uses, compute its binding key and call the Dependency Resolver";
an unresolved use sets the incompleteness marker ("the use's occurrence is
still included in the slice, but no corresponding definition occurrence is
added for that specific binding"). -/
def processUses (t : List Occurrence) (u : Nat) : List BindingKey → SliceState → SliceState
  | [], st => st
  | k :: ks, st =>
    match resolve_definition t u k with
    | none => processUses t u ks { st with incomplete := true }
    | some d => processUses t u ks (addOcc st d)

/-- Modelled from the spec: step 3 of the worklist algorithm: determine the
occurrence's control dependency and, "if that branch occurrence is not already
in the result set, add it and push it onto the worklist". -/
def processControl (t : List Occurrence) (o : Occurrence) (st : SliceState) : SliceState :=
  match o.controlDep with
  | none => st
  | some cs =>
    match t.find? (fun b => b.seq == cs) with
    | none => st
    | some b => addOcc st b

/-- Modelled from the spec: one pop of the worklist: process the popped
occurrence's data dependencies, then its control dependency. -/
def processOccurrence (t : List Occurrence) (o : Occurrence) (st : SliceState) : SliceState :=
  processControl t o (processUses t o.seq o.uses st)

/-- Modelled from the spec: the fixpoint worklist loop, "repeat until the
worklist is empty".  The fuel argument bounds the number of pops; since no
occurrence is pushed twice, `t.length + 1` pops always suffice (proved below). -/
def sliceLoop (t : List Occurrence) : Nat → SliceState → SliceState
  | 0, st => st
  | fuel + 1, st =>
    match st.worklist with
    | [] => st
    | o :: rest => sliceLoop t fuel (processOccurrence t o { st with worklist := rest })

/-- Modelled from the spec: the Slice result: "ordered occurrences, a
completeness flag (whether every resolved dependency was fully traced)". -/
structure Slice where
  occurrences : List Occurrence
  complete : Bool
deriving DecidableEq, Repr

/-- Modelled from the spec: "seed worklist with `criterion_occurrence`; seed
result set with it". -/
def initState (c : Occurrence) : SliceState :=
  { worklist := [c], result := [c], incomplete := false }

/-- Modelled from the spec: the state after the worklist loop has run to
fixpoint. -/
def finalState (t : List Occurrence) (c : Occurrence) : SliceState :=
  sliceLoop t (t.length + 1) (initState c)

/-- Modelled from the spec: `slice(trace, criterion) -> Slice`.  Emits "the
result set ordered by ascending `sequence_index` (i.e., in the order control
actually flowed), not the order of discovery"; since the trace is in execution
order, filtering it by result membership yields exactly that order.  A
criterion with no recorded occurrence is a usage error and yields the empty
slice.  (The spec names this operation `slice`; that name is already taken in
the ambient library, hence `backwardSlice`.) -/
def backwardSlice (t : List Occurrence) (c : Occurrence) : Slice :=
  if inRes t c.seq then
    { occurrences := t.filter (fun o => inRes (finalState t c).result o.seq),
      complete := !(finalState t c).incomplete }
  else { occurrences := [], complete := true }

/- ===================== Part B: typeinformation.py ========================= -/

/-- Embedding of the `SignatureType` hierarchy of
`pynguin/analyses/module/typeinformation.py`: `_UnknownType`, `_AnyType` and
`ConcreteType`.  None of these classes overrides `__eq__`, so Python compares
their instances by object identity; a concrete type is therefore identified
here by an opaque identity token rather than by its class information. -/
inductive SignatureType where
  | unknown
  | anyTy
  | concrete (id : Nat)
deriving DecidableEq, Repr

/-- Embedding of the module-level singleton `unknown_type = _UnknownType()`. -/
def unknown_type : SignatureType := SignatureType.unknown

/-- Embedding of the module-level singleton `any_type = _AnyType()`. -/
def any_type : SignatureType := SignatureType.anyTy

namespace SignatureElement

/-- Embedding of the named tuple `SignatureElement._Element`: a signature type
together with a confidence.  The confidence is modelled as a rational number. -/
structure Element where
  signature_type : SignatureType
  confidence : Rat
deriving DecidableEq, Repr

/-- Embedding of `self._unknown_element = _Element(unknown_type, 0.0)`. -/
def unknownElement : Element := ⟨unknown_type, 0⟩

/-- Embedding of `SignatureElement.__init__`:
`self._elements = {self._unknown_element}`.  The Python set of elements is
modelled as a list. -/
def initElements : List Element := [unknownElement]

/-- The exceptions `add_element` and `replace_element` can raise. -/
inductive AddError where
  | valueError
  | assertionError
deriving DecidableEq, Repr

/-- Embedding of `SignatureElement._contains_signature`: whether some element
of the set carries the given signature type. -/
def containsSignature (s : List Element) (sig : SignatureType) : Bool :=
  s.any (fun e => e.signature_type == sig)

/-- Embedding of `SignatureElement.add_element`.  The first component is the
exception raised, if any; the second is the element set after the call.  Both
`raise` statements in the source execute before any mutation of
`self._elements`, so on an error the set is returned unchanged. -/
def add_element (s : List Element) (sig : SignatureType) (confidence : Rat) :
    Option AddError × List Element :=
  if confidence > 1 ∨ confidence < 0 then (some AddError.valueError, s)
  else if containsSignature s sig then (some AddError.assertionError, s)
  else
    let s' := if s.length = 1 ∧ unknownElement ∈ s then [] else s
    (none, ⟨sig, confidence⟩ :: s')

/-- Embedding of `SignatureElement.replace_element`.  When the signature type
is not yet present the source delegates to `add_element`; otherwise it removes
the element carrying that signature type and adds one with the new
confidence.  The `none` branch of the `find?` models the
`assert found is not None` in the source and is unreachable. -/
def replace_element (s : List Element) (sig : SignatureType) (confidence : Rat) :
    Option AddError × List Element :=
  if confidence > 1 ∨ confidence < 0 then (some AddError.valueError, s)
  else if ¬ containsSignature s sig then add_element s sig confidence
  else
    match s.find? (fun e => e.signature_type == sig) with
    | none => (some AddError.assertionError, s)
    | some found => (none, ⟨sig, confidence⟩ :: s.erase found)

/-- The element sets reachable through the constructor and the mutators of
`SignatureElement`: the freshly constructed set, and everything an
`add_element` or `replace_element` call can produce from a reachable set
(including the calls that raise, which leave the set unchanged). -/
inductive Reachable : List Element → Prop where
  | init : Reachable initElements
  | add (s : List Element) (sig : SignatureType) (confidence : Rat) :
      Reachable s → Reachable (add_element s sig confidence).2
  | replace (s : List Element) (sig : SignatureType) (confidence : Rat) :
      Reachable s → Reachable (replace_element s sig confidence).2

end SignatureElement


/- ============== Invariants, measures and example traces ================== -/

/-- Growth relation between worklist states: the result set only grows and the
incompleteness marker is only ever set, never cleared. -/
def StLe (st st' : SliceState) : Prop :=
  (∀ r ∈ st.result, r ∈ st'.result) ∧ (st.incomplete = true → st'.incomplete = true)

/-- All dependencies of an occurrence are accounted for in a state: every
resolvable use has its definition in the result set, every unresolvable use is
reflected in the incompleteness marker, and the control dependency (when its
branch occurrence is recorded in the trace) is in the result set. -/
def DepsDone (t : List Occurrence) (st : SliceState) (o : Occurrence) : Prop :=
  (∀ k ∈ o.uses,
    (resolve_definition t o.seq k = none → st.incomplete = true) ∧
    (∀ d, resolve_definition t o.seq k = some d → inRes st.result d.seq = true)) ∧
  (∀ cs b, o.controlDep = some cs → t.find? (fun x => x.seq == cs) = some b →
    inRes st.result b.seq = true)

/-- The loop invariant of the backward slicer: the worklist is contained in
the result set; every result member is the criterion or a trace occurrence;
every result member other than the criterion was added as a data or control
dependency of some result member; and every result member is either still
pending on the worklist or has all of its dependencies settled. -/
def SliceInv (t : List Occurrence) (c : Occurrence) (st : SliceState) : Prop :=
  (∀ p ∈ st.worklist, p ∈ st.result) ∧
  (∀ p ∈ st.result, p = c ∨ p ∈ t) ∧
  (∀ p ∈ st.result, p = c ∨ ∃ o ∈ st.result,
      (∃ k ∈ o.uses, resolve_definition t o.seq k = some p ∧ p.seq < o.seq) ∨
      ∃ cs, o.controlDep = some cs ∧ t.find? (fun b => b.seq == cs) = some p) ∧
  (∀ p ∈ st.result, p ∈ st.worklist ∨ DepsDone t st p)

/-- The number of trace occurrences whose sequence index is not yet in the
result set. -/
def countNotIn (t : List Occurrence) (res : List Occurrence) : Nat :=
  t.countP (fun o => !inRes res o.seq)

/-- The loop measure: pending worklist entries plus trace occurrences not yet
in the result set. -/
def stMeasure (t : List Occurrence) (st : SliceState) : Nat :=
  st.worklist.length + countNotIn t st.result

/-- A trace is in execution order: its occurrences carry strictly increasing
sequence indices. -/
abbrev SeqOrdered (t : List Occurrence) : Prop :=
  t.Pairwise (fun a b => a.seq < b.seq)

/-- Helper to build example occurrences: sequence index, instruction id, code
unit, frame, uses, defs, control dependency. -/
def mkOcc (s i cu fr : Nat) (u d : List BindingKey) (cd : Option Nat) : Occurrence :=
  ⟨s, i, cu, fr, u, d, cd⟩

/-- Example trace for the conditional scenario with the condition true, after
`test_simple_control_dependency_1` and the spec's conditional example:
`cond = ...; if cond: r = 1; else: r = default; return r`.  The condition
variable definition. -/
def exC1condDef : Occurrence := mkOcc 1 1 0 0 [] [BindingKey.localVar "cond" 0] none

/-- The branch occurrence testing `cond` (true case). -/
def exC1branchT : Occurrence := mkOcc 2 2 0 0 [BindingKey.localVar "cond" 0] [] none

/-- The taken-branch assignment `r = 1`, control dependent on the branch. -/
def exC1takenAsgn : Occurrence := mkOcc 3 3 0 0 [] [BindingKey.localVar "r" 0] (some 2)

/-- The criterion `return r` of the true case. -/
def exC1trueCrit : Occurrence := mkOcc 4 4 0 0 [BindingKey.localVar "r" 0] [] none

/-- The trace of the true case.  The not-taken branch's assignment (static
instruction 5) never executed and hence has no occurrence. -/
def exC1trueTrace : List Occurrence := [exC1condDef, exC1branchT, exC1takenAsgn, exC1trueCrit]

/-- Condition variable definition of the false case. -/
def exC1condDefF : Occurrence := mkOcc 1 1 0 0 [] [BindingKey.localVar "cond" 0] none

/-- The branch occurrence testing `cond` (false case). -/
def exC1branchF : Occurrence := mkOcc 2 2 0 0 [BindingKey.localVar "cond" 0] [] none

/-- The else-branch (default) assignment `r = default` (static instruction 5),
control dependent on the branch; the taken-branch assignment (instruction 3)
never executed. -/
def exC1elseAsgn : Occurrence := mkOcc 3 5 0 0 [] [BindingKey.localVar "r" 0] (some 2)

/-- The criterion `return r` of the false case. -/
def exC1falseCrit : Occurrence := mkOcc 4 4 0 0 [BindingKey.localVar "r" 0] [] none

/-- The trace of the false case. -/
def exC1falseTrace : List Occurrence := [exC1condDefF, exC1branchF, exC1elseAsgn, exC1falseCrit]

/-- Example after `test_data_dependency_2`: `result = 1; foo = 2; return
result`.  The store to `result`. -/
def exC2resultDef : Occurrence := mkOcc 1 1 0 0 [] [BindingKey.localVar "result" 0] none

/-- The store to `foo`, a pure definition never read afterwards. -/
def exC2fooDef : Occurrence := mkOcc 2 2 0 0 [] [BindingKey.localVar "foo" 0] none

/-- The criterion `return result`. -/
def exC2crit : Occurrence := mkOcc 3 3 0 0 [BindingKey.localVar "result" 0] [] none

/-- The trace of the irrelevant-definition example. -/
def exC2trace : List Occurrence := [exC2resultDef, exC2fooDef, exC2crit]

/-- Reassignment example: `x = 1; x = 2; x = 3; return x`.  First store. -/
def exC3def1 : Occurrence := mkOcc 1 1 0 0 [] [BindingKey.localVar "x" 0] none

/-- Second store to `x`. -/
def exC3def2 : Occurrence := mkOcc 2 2 0 0 [] [BindingKey.localVar "x" 0] none

/-- Third (nearest preceding) store to `x`. -/
def exC3def3 : Occurrence := mkOcc 3 3 0 0 [] [BindingKey.localVar "x" 0] none

/-- The criterion `return x`. -/
def exC3crit : Occurrence := mkOcc 4 4 0 0 [BindingKey.localVar "x" 0] [] none

/-- The trace of the reassignment example. -/
def exC3trace : List Occurrence := [exC3def1, exC3def2, exC3def3, exC3crit]

/-- Cross-module example after `test_data_dependency_6`: the dependency
module (code unit 1) binds `module_list` in its namespace. -/
def exC4moduleDef : Occurrence :=
  mkOcc 1 1 1 1 [] [BindingKey.globalName "module_list" 1] none

/-- The dependency module also binds `Foo`; irrelevant to the criterion. -/
def exC4fooDef : Occurrence := mkOcc 2 2 1 1 [] [BindingKey.globalName "Foo" 1] none

/-- The main module (code unit 0) reads the imported name `module_list` —
the binding key points at the defining module — and stores `result`. -/
def exC4resultDef : Occurrence :=
  mkOcc 3 3 0 0 [BindingKey.globalName "module_list" 1] [BindingKey.localVar "result" 0] none

/-- The criterion `return result` in the main module. -/
def exC4crit : Occurrence := mkOcc 4 4 0 0 [BindingKey.localVar "result" 0] [] none

/-- The two-module trace. -/
def exC4trace : List Occurrence := [exC4moduleDef, exC4fooDef, exC4resultDef, exC4crit]

/-- Example after `test_data_dependency_1`: `result = 1; return result`. -/
def exC5def : Occurrence := mkOcc 1 1 0 0 [] [BindingKey.localVar "result" 0] none

/-- The criterion `return result`. -/
def exC5crit : Occurrence := mkOcc 2 2 0 0 [BindingKey.localVar "result" 0] [] none

/-- The trace of the minimal example. -/
def exC5trace : List Occurrence := [exC5def, exC5crit]

/-- Example after `test_data_dependency_5`: `ob = Foo(); result = ob` with
`ob.attr2` read while its initializing store was never traced. -/
def exC6obDef : Occurrence := mkOcc 1 1 0 0 [] [BindingKey.localVar "ob" 0] none

/-- The occurrence reading the untraced attribute `attr2` of owner 7 and the
local `ob`, storing `result`. -/
def exC6attrUse : Occurrence :=
  mkOcc 2 2 0 0 [BindingKey.localVar "ob" 0, BindingKey.attrKey "attr2" 7]
    [BindingKey.localVar "result" 0] none

/-- The criterion `return result` of the partially covered example. -/
def exC6crit : Occurrence := mkOcc 3 3 0 0 [BindingKey.localVar "result" 0] [] none

/-- The trace whose attribute use is unresolvable. -/
def exC6trace : List Occurrence := [exC6obDef, exC6attrUse, exC6crit]

/- ===================== Lemmas about the dependency resolver =============== -/

/-- The helper `pickLater` never returns `none`. -/
theorem pickLater_ne_none (a : Occurrence) (r : Option Occurrence) :
    pickLater a r ≠ none := by
  cases r with
  | none => simp [pickLater]
  | some b => simp only [pickLater]; split <;> simp

/-- A resolved definition is an occurrence of the trace that defines the
binding key and strictly precedes the use. -/
theorem resolve_definition_spec (t : List Occurrence) (u : Nat) (k : BindingKey)
    (d : Occurrence) (h : resolve_definition t u k = some d) :
    d ∈ t ∧ k ∈ d.defs ∧ d.seq < u := by
  induction t with
  | nil => simp [resolve_definition] at h
  | cons o rest ih =>
    rw [resolve_definition] at h
    by_cases hc : k ∈ o.defs ∧ o.seq < u
    · rw [if_pos hc] at h
      cases hr : resolve_definition rest u k with
      | none =>
        rw [hr] at h
        simp only [pickLater, Option.some.injEq] at h
        subst h
        exact ⟨List.mem_cons_self _ _, hc.1, hc.2⟩
      | some b =>
        rw [hr] at h
        simp only [pickLater] at h
        split at h
        · cases h
          obtain ⟨hb, hkb, hbu⟩ := ih hr
          exact ⟨List.mem_cons_of_mem _ hb, hkb, hbu⟩
        · cases h
          exact ⟨List.mem_cons_self _ _, hc.1, hc.2⟩
    · rw [if_neg hc] at h
      obtain ⟨hb, hkb, hbu⟩ := ih h
      exact ⟨List.mem_cons_of_mem _ hb, hkb, hbu⟩

/-- When the resolver finds no definition, no occurrence of the trace defines
the binding key before the use. -/
theorem resolve_definition_none (t : List Occurrence) (u : Nat) (k : BindingKey)
    (h : resolve_definition t u k = none) :
    ∀ o ∈ t, ¬(k ∈ o.defs ∧ o.seq < u) := by
  induction t with
  | nil => intro o ho; cases ho
  | cons o rest ih =>
    rw [resolve_definition] at h
    by_cases hc : k ∈ o.defs ∧ o.seq < u
    · rw [if_pos hc] at h
      exact absurd h (pickLater_ne_none _ _)
    · rw [if_neg hc] at h
      intro p hp
      rcases List.mem_cons.mp hp with rfl | hm
      · exact hc
      · exact ih h p hm

/-- The resolver returns the latest qualifying definition: every occurrence of
the trace that defines the binding key strictly before the use has a sequence
index no larger than the returned one. -/
theorem resolve_definition_max (t : List Occurrence) (u : Nat) (k : BindingKey)
    (d : Occurrence) (h : resolve_definition t u k = some d) :
    ∀ o ∈ t, k ∈ o.defs → o.seq < u → o.seq ≤ d.seq := by
  induction t generalizing d with
  | nil => intro o ho; cases ho
  | cons o rest ih =>
    rw [resolve_definition] at h
    intro p hp hk hu
    rcases List.mem_cons.mp hp with rfl | hm
    · rw [if_pos ⟨hk, hu⟩] at h
      cases hr : resolve_definition rest u k with
      | none =>
        rw [hr] at h
        simp only [pickLater, Option.some.injEq] at h
        subst h
        exact Nat.le_refl _
      | some b =>
        rw [hr] at h
        simp only [pickLater] at h
        split at h
        · cases h
          next hlt => exact Nat.le_of_lt hlt
        · cases h
          exact Nat.le_refl _
    · by_cases hc : k ∈ o.defs ∧ o.seq < u
      · rw [if_pos hc] at h
        cases hr : resolve_definition rest u k with
        | none => exact absurd (resolve_definition_none rest u k hr p hm) (by exact fun hn => hn ⟨hk, hu⟩)
        | some b =>
          have hpb : p.seq ≤ b.seq := ih b hr p hm hk hu
          rw [hr] at h
          simp only [pickLater] at h
          split at h
          · cases h; exact hpb
          · cases h
            next hnlt => exact Nat.le_trans hpb (Nat.le_of_not_lt hnlt)
      · rw [if_neg hc] at h
        exact ih d h p hm hk hu

/- ===================== Lemmas about the worklist machinery ================ -/

theorem stle_refl (st : SliceState) : StLe st st :=
  ⟨fun _ h => h, id⟩

theorem stle_comp {a b c : SliceState} (h1 : StLe a b) (h2 : StLe b c) : StLe a c :=
  ⟨fun r hr => h2.1 r (h1.1 r hr), fun h => h2.2 (h1.2 h)⟩

theorem stle_incomplete (st : SliceState) : StLe st { st with incomplete := true } :=
  ⟨fun _ h => h, fun _ => rfl⟩

/-- An occurrence of the result set witnesses result membership of its
sequence index. -/
theorem inRes_of_mem {res : List Occurrence} {r : Occurrence} (h : r ∈ res) :
    inRes res r.seq = true := by
  simp only [inRes, List.any_eq_true]
  exact ⟨r, h, by simp⟩

/-- Sequence-index membership is monotone in the result set. -/
theorem inRes_mono {res res' : List Occurrence} (h : ∀ r ∈ res, r ∈ res') {s : Nat}
    (hs : inRes res s = true) : inRes res' s = true := by
  simp only [inRes, List.any_eq_true] at hs ⊢
  obtain ⟨r, hr, he⟩ := hs
  exact ⟨r, h r hr, he⟩

theorem addOcc_stle (st : SliceState) (d : Occurrence) : StLe st (addOcc st d) := by
  unfold addOcc
  split
  · exact stle_refl st
  · exact ⟨fun r hr => List.mem_cons_of_mem _ hr, fun h => h⟩

theorem addOcc_result_mem (st : SliceState) (d : Occurrence) :
    ∀ p ∈ (addOcc st d).result, p = d ∨ p ∈ st.result := by
  unfold addOcc
  split
  · exact fun p hp => Or.inr hp
  · exact fun p hp => List.mem_cons.mp hp

theorem addOcc_worklist_sup (st : SliceState) (d : Occurrence) :
    ∀ p ∈ st.worklist, p ∈ (addOcc st d).worklist := by
  unfold addOcc
  split
  · exact fun p hp => hp
  · exact fun p hp => List.mem_cons_of_mem _ hp

theorem addOcc_inRes (st : SliceState) (d : Occurrence) :
    inRes (addOcc st d).result d.seq = true := by
  unfold addOcc
  split
  · assumption
  · simp [inRes]

theorem addOcc_wl_sub (st : SliceState) (d : Occurrence)
    (h : ∀ p ∈ st.worklist, p ∈ st.result) :
    ∀ p ∈ (addOcc st d).worklist, p ∈ (addOcc st d).result := by
  unfold addOcc
  split
  · exact h
  · intro p hp
    rcases List.mem_cons.mp hp with rfl | hp
    · exact List.mem_cons_self _ _
    · exact List.mem_cons_of_mem _ (h p hp)

/-- New result members introduced by `addOcc` are on the new worklist. -/
theorem addOcc_new_in_wl (st : SliceState) (d : Occurrence) :
    ∀ p ∈ (addOcc st d).result, p ∈ st.result ∨ p ∈ (addOcc st d).worklist := by
  unfold addOcc
  split
  · exact fun p hp => Or.inl hp
  · intro p hp
    rcases List.mem_cons.mp hp with rfl | hp
    · exact Or.inr (List.mem_cons_self _ _)
    · exact Or.inl hp

theorem processUses_stle (t : List Occurrence) (u : Nat) (ks : List BindingKey)
    (st : SliceState) : StLe st (processUses t u ks st) := by
  induction ks generalizing st with
  | nil => exact stle_refl st
  | cons k ks ih =>
    cases h : resolve_definition t u k with
    | none =>
      simp only [processUses, h]
      exact stle_comp (stle_incomplete st) (ih _)
    | some d =>
      simp only [processUses, h]
      exact stle_comp (addOcc_stle st d) (ih _)

theorem processUses_worklist_sup (t : List Occurrence) (u : Nat) (ks : List BindingKey)
    (st : SliceState) : ∀ p ∈ st.worklist, p ∈ (processUses t u ks st).worklist := by
  induction ks generalizing st with
  | nil => exact fun p hp => hp
  | cons k ks ih =>
    cases h : resolve_definition t u k with
    | none =>
      simp only [processUses, h]
      exact fun p hp => ih _ p hp
    | some d =>
      simp only [processUses, h]
      exact fun p hp => ih _ p (addOcc_worklist_sup st d p hp)

theorem processUses_result_mem (t : List Occurrence) (u : Nat) (ks : List BindingKey)
    (st : SliceState) :
    ∀ p ∈ (processUses t u ks st).result,
      p ∈ st.result ∨ ∃ k ∈ ks, resolve_definition t u k = some p := by
  induction ks generalizing st with
  | nil => exact fun p hp => Or.inl hp
  | cons k ks ih =>
    cases h : resolve_definition t u k with
    | none =>
      simp only [processUses, h]
      intro p hp
      rcases ih _ p hp with hold | ⟨k', hk', hr⟩
      · exact Or.inl hold
      · exact Or.inr ⟨k', List.mem_cons_of_mem _ hk', hr⟩
    | some d =>
      simp only [processUses, h]
      intro p hp
      rcases ih _ p hp with hold | ⟨k', hk', hr⟩
      · rcases addOcc_result_mem st d p hold with rfl | hst
        · exact Or.inr ⟨k, List.mem_cons_self _ _, h⟩
        · exact Or.inl hst
      · exact Or.inr ⟨k', List.mem_cons_of_mem _ hk', hr⟩

theorem processUses_wl_sub (t : List Occurrence) (u : Nat) (ks : List BindingKey)
    (st : SliceState) (h : ∀ p ∈ st.worklist, p ∈ st.result) :
    ∀ p ∈ (processUses t u ks st).worklist, p ∈ (processUses t u ks st).result := by
  induction ks generalizing st with
  | nil => exact h
  | cons k ks ih =>
    cases hr : resolve_definition t u k with
    | none =>
      simp only [processUses, hr]
      exact ih _ h
    | some d =>
      simp only [processUses, hr]
      exact ih _ (addOcc_wl_sub st d h)

theorem processUses_new_in_wl (t : List Occurrence) (u : Nat) (ks : List BindingKey)
    (st : SliceState) :
    ∀ p ∈ (processUses t u ks st).result,
      p ∈ st.result ∨ p ∈ (processUses t u ks st).worklist := by
  induction ks generalizing st with
  | nil => exact fun p hp => Or.inl hp
  | cons k ks ih =>
    cases hr : resolve_definition t u k with
    | none =>
      simp only [processUses, hr]
      exact fun p hp => ih _ p hp
    | some d =>
      simp only [processUses, hr]
      intro p hp
      rcases ih _ p hp with hold | hwl
      · rcases addOcc_new_in_wl st d p hold with hst | hw
        · exact Or.inl hst
        · exact Or.inr (processUses_worklist_sup t u ks _ p hw)
      · exact Or.inr hwl

/-- After `processUses` every listed binding key is accounted for: an
unresolved key has set the incompleteness marker, a resolved one has its
definition in the result set. -/
theorem processUses_post (t : List Occurrence) (u : Nat) (ks : List BindingKey)
    (st : SliceState) :
    ∀ k ∈ ks,
      (resolve_definition t u k = none → (processUses t u ks st).incomplete = true) ∧
      (∀ d, resolve_definition t u k = some d →
        inRes (processUses t u ks st).result d.seq = true) := by
  induction ks generalizing st with
  | nil => intro k hk; cases hk
  | cons k ks ih =>
    intro k' hk'
    rcases List.mem_cons.mp hk' with rfl | hm
    · cases hr : resolve_definition t u k' with
      | none =>
        simp only [processUses, hr]
        refine ⟨fun _ => ?_, fun d hd => ?_⟩
        · exact (processUses_stle t u ks _).2 rfl
        · cases hd
      | some d =>
        simp only [processUses, hr]
        refine ⟨fun hn => ?_, fun d' hd' => ?_⟩
        · cases hn
        · cases hd'
          exact inRes_mono (processUses_stle t u ks (addOcc st d)).1 (addOcc_inRes st d)
    · cases hr : resolve_definition t u k with
      | none =>
        simp only [processUses, hr]
        exact ih _ k' hm
      | some d =>
        simp only [processUses, hr]
        exact ih _ k' hm

theorem processControl_stle (t : List Occurrence) (o : Occurrence) (st : SliceState) :
    StLe st (processControl t o st) := by
  cases hc : o.controlDep with
  | none => simp only [processControl, hc]; exact stle_refl st
  | some cs =>
    cases hf : t.find? (fun b => b.seq == cs) with
    | none => simp only [processControl, hc, hf]; exact stle_refl st
    | some b => simp only [processControl, hc, hf]; exact addOcc_stle st b

theorem processControl_worklist_sup (t : List Occurrence) (o : Occurrence) (st : SliceState) :
    ∀ p ∈ st.worklist, p ∈ (processControl t o st).worklist := by
  cases hc : o.controlDep with
  | none => simp only [processControl, hc]; exact fun p hp => hp
  | some cs =>
    cases hf : t.find? (fun b => b.seq == cs) with
    | none => simp only [processControl, hc, hf]; exact fun p hp => hp
    | some b => simp only [processControl, hc, hf]; exact addOcc_worklist_sup st b

theorem processControl_result_mem (t : List Occurrence) (o : Occurrence) (st : SliceState) :
    ∀ p ∈ (processControl t o st).result,
      p ∈ st.result ∨ ∃ cs, o.controlDep = some cs ∧
        t.find? (fun b => b.seq == cs) = some p := by
  cases hc : o.controlDep with
  | none => simp only [processControl, hc]; exact fun p hp => Or.inl hp
  | some cs =>
    cases hf : t.find? (fun b => b.seq == cs) with
    | none => simp only [processControl, hc, hf]; exact fun p hp => Or.inl hp
    | some b =>
      simp only [processControl, hc, hf]
      intro p hp
      rcases addOcc_result_mem st b p hp with rfl | hst
      · exact Or.inr ⟨cs, rfl, hf⟩
      · exact Or.inl hst

theorem processControl_wl_sub (t : List Occurrence) (o : Occurrence) (st : SliceState)
    (h : ∀ p ∈ st.worklist, p ∈ st.result) :
    ∀ p ∈ (processControl t o st).worklist, p ∈ (processControl t o st).result := by
  cases hc : o.controlDep with
  | none => simp only [processControl, hc]; exact h
  | some cs =>
    cases hf : t.find? (fun b => b.seq == cs) with
    | none => simp only [processControl, hc, hf]; exact h
    | some b => simp only [processControl, hc, hf]; exact addOcc_wl_sub st b h

theorem processControl_new_in_wl (t : List Occurrence) (o : Occurrence) (st : SliceState) :
    ∀ p ∈ (processControl t o st).result,
      p ∈ st.result ∨ p ∈ (processControl t o st).worklist := by
  cases hc : o.controlDep with
  | none => simp only [processControl, hc]; exact fun p hp => Or.inl hp
  | some cs =>
    cases hf : t.find? (fun b => b.seq == cs) with
    | none => simp only [processControl, hc, hf]; exact fun p hp => Or.inl hp
    | some b => simp only [processControl, hc, hf]; exact addOcc_new_in_wl st b

/-- After `processControl` the control dependency of the processed occurrence,
when its branch occurrence exists in the trace, is in the result set. -/
theorem processControl_post (t : List Occurrence) (o : Occurrence) (st : SliceState) :
    ∀ cs b, o.controlDep = some cs → t.find? (fun x => x.seq == cs) = some b →
      inRes (processControl t o st).result b.seq = true := by
  intro cs b hcd hf
  simp only [processControl, hcd, hf]
  exact addOcc_inRes st b

theorem processOccurrence_stle (t : List Occurrence) (o : Occurrence) (st : SliceState) :
    StLe st (processOccurrence t o st) :=
  stle_comp (processUses_stle t o.seq o.uses st) (processControl_stle t o _)

theorem processOccurrence_worklist_sup (t : List Occurrence) (o : Occurrence)
    (st : SliceState) : ∀ p ∈ st.worklist, p ∈ (processOccurrence t o st).worklist :=
  fun p hp =>
    processControl_worklist_sup t o _ p (processUses_worklist_sup t o.seq o.uses st p hp)

theorem processOccurrence_result_mem (t : List Occurrence) (o : Occurrence)
    (st : SliceState) :
    ∀ p ∈ (processOccurrence t o st).result,
      p ∈ st.result ∨ (∃ k ∈ o.uses, resolve_definition t o.seq k = some p) ∨
        ∃ cs, o.controlDep = some cs ∧ t.find? (fun b => b.seq == cs) = some p := by
  intro p hp
  rcases processControl_result_mem t o _ p hp with hu | hctl
  · rcases processUses_result_mem t o.seq o.uses st p hu with hst | hdata
    · exact Or.inl hst
    · exact Or.inr (Or.inl hdata)
  · exact Or.inr (Or.inr hctl)

theorem processOccurrence_wl_sub (t : List Occurrence) (o : Occurrence) (st : SliceState)
    (h : ∀ p ∈ st.worklist, p ∈ st.result) :
    ∀ p ∈ (processOccurrence t o st).worklist, p ∈ (processOccurrence t o st).result :=
  processControl_wl_sub t o _ (processUses_wl_sub t o.seq o.uses st h)

theorem processOccurrence_new_in_wl (t : List Occurrence) (o : Occurrence)
    (st : SliceState) :
    ∀ p ∈ (processOccurrence t o st).result,
      p ∈ st.result ∨ p ∈ (processOccurrence t o st).worklist := by
  intro p hp
  rcases processControl_new_in_wl t o _ p hp with hu | hwl
  · rcases processUses_new_in_wl t o.seq o.uses st p hu with hst | hw
    · exact Or.inl hst
    · exact Or.inr (processControl_worklist_sup t o _ p hw)
  · exact Or.inr hwl

theorem depsDone_mono {t : List Occurrence} {st st' : SliceState} {o : Occurrence}
    (h : DepsDone t st o) (hle : StLe st st') : DepsDone t st' o := by
  refine ⟨fun k hk => ⟨fun hn => hle.2 ((h.1 k hk).1 hn), fun d hd => ?_⟩,
    fun cs b hcd hf => ?_⟩
  · exact inRes_mono hle.1 ((h.1 k hk).2 d hd)
  · exact inRes_mono hle.1 (h.2 cs b hcd hf)

/-- Processing an occurrence settles all of its dependencies. -/
theorem processOccurrence_post (t : List Occurrence) (o : Occurrence) (st : SliceState) :
    DepsDone t (processOccurrence t o st) o := by
  constructor
  · intro k hk
    constructor
    · intro hn
      exact (processControl_stle t o _).2 ((processUses_post t o.seq o.uses st k hk).1 hn)
    · intro d hd
      exact inRes_mono (processControl_stle t o _).1
        ((processUses_post t o.seq o.uses st k hk).2 d hd)
  · intro cs b hcd hf
    exact processControl_post t o _ cs b hcd hf

theorem inv_init (t : List Occurrence) (c : Occurrence) : SliceInv t c (initState c) := by
  refine ⟨fun p hp => hp, fun p hp => ?_, fun p hp => ?_, fun p hp => Or.inl hp⟩
  · rcases List.mem_singleton.mp hp with rfl
    exact Or.inl rfl
  · rcases List.mem_singleton.mp hp with rfl
    exact Or.inl rfl

/-- One pop of the worklist preserves the loop invariant. -/
theorem inv_step (t : List Occurrence) (c : Occurrence) (o : Occurrence)
    (rest : List Occurrence) (st : SliceState) (hw : st.worklist = o :: rest)
    (hinv : SliceInv t c st) :
    SliceInv t c (processOccurrence t o { st with worklist := rest }) := by
  obtain ⟨hwl, hmem, hprov, hdone⟩ := hinv
  have ho : o ∈ st.result := hwl o (by rw [hw]; exact List.mem_cons_self _ _)
  have hrest : ∀ p ∈ rest, p ∈ st.result := fun p hp =>
    hwl p (by rw [hw]; exact List.mem_cons_of_mem _ hp)
  set st0 : SliceState := { st with worklist := rest } with hst0
  have hst0wl : ∀ p ∈ st0.worklist, p ∈ st0.result := hrest
  have hle : StLe st0 (processOccurrence t o st0) := processOccurrence_stle t o st0
  have hle' : StLe st (processOccurrence t o st0) := hle
  refine ⟨processOccurrence_wl_sub t o st0 hst0wl, ?_, ?_, ?_⟩
  · intro p hp
    rcases processOccurrence_result_mem t o st0 p hp with hst | hnew
    · exact hmem p hst
    · rcases hnew with ⟨k, _, hr⟩ | ⟨cs, _, hf⟩
      · exact Or.inr (resolve_definition_spec t o.seq k p hr).1
      · exact Or.inr (List.mem_of_find?_eq_some hf)
  · intro p hp
    rcases processOccurrence_result_mem t o st0 p hp with hst | hnew
    · rcases hprov p hst with rfl | ⟨w, hwst, hcase⟩
      · exact Or.inl rfl
      · exact Or.inr ⟨w, hle'.1 w hwst, hcase⟩
    · have homem : o ∈ (processOccurrence t o st0).result := hle'.1 o ho
      rcases hnew with ⟨k, hk, hr⟩ | ⟨cs, hcd, hf⟩
      · exact Or.inr ⟨o, homem, Or.inl ⟨k, hk, hr,
          (resolve_definition_spec t o.seq k p hr).2.2⟩⟩
      · exact Or.inr ⟨o, homem, Or.inr ⟨cs, hcd, hf⟩⟩
  · intro p hp
    rcases processOccurrence_new_in_wl t o st0 p hp with hst | hwl'
    · by_cases hpo : p = o
      · subst hpo
        exact Or.inr (processOccurrence_post t p st0)
      · rcases hdone p hst with hpw | hpd
        · rw [hw] at hpw
          rcases List.mem_cons.mp hpw with rfl | hpr
          · exact absurd rfl hpo
          · exact Or.inl (processOccurrence_worklist_sup t o st0 p hpr)
        · exact Or.inr (depsDone_mono hpd hle')
    · exact Or.inl hwl'

theorem sliceLoop_stle (t : List Occurrence) (fuel : Nat) (st : SliceState) :
    StLe st (sliceLoop t fuel st) := by
  induction fuel generalizing st with
  | zero => exact stle_refl st
  | succ fuel ih =>
    cases hw : st.worklist with
    | nil => simp only [sliceLoop, hw]; exact stle_refl st
    | cons o rest =>
      simp only [sliceLoop, hw]
      exact stle_comp (processOccurrence_stle t o { st with worklist := rest }) (ih _)

theorem sliceLoop_inv (t : List Occurrence) (c : Occurrence) (fuel : Nat)
    (st : SliceState) (hinv : SliceInv t c st) : SliceInv t c (sliceLoop t fuel st) := by
  induction fuel generalizing st with
  | zero => exact hinv
  | succ fuel ih =>
    cases hw : st.worklist with
    | nil => simp only [sliceLoop, hw]; exact hinv
    | cons o rest =>
      simp only [sliceLoop, hw]
      exact ih _ (inv_step t c o rest st hw hinv)

/- ===================== Termination of the worklist loop =================== -/

theorem countP_lt_of_witness {α : Type} (p q : α → Bool) (l : List α)
    (himp : ∀ a ∈ l, p a = true → q a = true) (x : α) (hx : x ∈ l)
    (hqx : q x = true) (hpx : p x = false) :
    l.countP p < l.countP q := by
  induction l with
  | nil => cases hx
  | cons a l ih =>
    rw [List.countP_cons, List.countP_cons]
    have e0 : (if (false : Bool) = true then (1 : Nat) else 0) = 0 := rfl
    have e1 : (if (true : Bool) = true then (1 : Nat) else 0) = 1 := rfl
    rcases List.mem_cons.mp hx with rfl | hx'
    · have h1 : l.countP p ≤ l.countP q :=
        List.countP_mono_left (fun b hb hp => himp b (List.mem_cons_of_mem _ hb) hp)
      rw [hpx, hqx, e0, e1]
      omega
    · have h1 := ih (fun b hb hp => himp b (List.mem_cons_of_mem _ hb) hp) hx'
      have h2 : (if p a = true then (1 : Nat) else 0) ≤ (if q a = true then 1 else 0) := by
        cases hpa : p a with
        | false => rw [e0]; exact Nat.zero_le _
        | true => rw [himp a (List.mem_cons_self a l) hpa, e1]
      exact Nat.add_lt_add_of_lt_of_le h1 h2

theorem countNotIn_mono (t : List Occurrence) {res res' : List Occurrence}
    (h : ∀ r ∈ res, r ∈ res') : countNotIn t res' ≤ countNotIn t res := by
  refine List.countP_mono_left (fun o _ hp => ?_)
  rw [Bool.not_eq_true'] at hp ⊢
  cases hq : inRes res o.seq with
  | false => rfl
  | true => rw [inRes_mono h hq] at hp; cases hp

theorem addOcc_measure (t : List Occurrence) (st : SliceState) (d : Occurrence)
    (hd : d ∈ t) : stMeasure t (addOcc st d) ≤ stMeasure t st := by
  unfold addOcc
  split
  · exact Nat.le_refl _
  · next hni =>
    rw [Bool.not_eq_true] at hni
    have hlt : countNotIn t (d :: st.result) < countNotIn t st.result := by
      refine countP_lt_of_witness _ _ t ?_ d hd ?_ ?_
      · intro a _ hp
        rw [Bool.not_eq_true'] at hp ⊢
        cases hq : inRes st.result a.seq with
        | false => rfl
        | true =>
          rw [inRes_mono (fun r hr => List.mem_cons_of_mem _ hr) hq] at hp
          cases hp
      · rw [Bool.not_eq_true']
        exact hni
      · simp [inRes]
    simp only [stMeasure, List.length_cons]
    omega

theorem processUses_measure (t : List Occurrence) (u : Nat) (ks : List BindingKey)
    (st : SliceState) : stMeasure t (processUses t u ks st) ≤ stMeasure t st := by
  induction ks generalizing st with
  | nil => exact Nat.le_refl _
  | cons k ks ih =>
    cases hr : resolve_definition t u k with
    | none =>
      simp only [processUses, hr]
      exact Nat.le_trans (ih _) (Nat.le_refl _)
    | some d =>
      simp only [processUses, hr]
      exact Nat.le_trans (ih _)
        (addOcc_measure t st d (resolve_definition_spec t u k d hr).1)

theorem processControl_measure (t : List Occurrence) (o : Occurrence) (st : SliceState) :
    stMeasure t (processControl t o st) ≤ stMeasure t st := by
  cases hc : o.controlDep with
  | none => simp only [processControl, hc]; exact Nat.le_refl _
  | some cs =>
    cases hf : t.find? (fun b => b.seq == cs) with
    | none => simp only [processControl, hc, hf]; exact Nat.le_refl _
    | some b =>
      simp only [processControl, hc, hf]
      exact addOcc_measure t st b (List.mem_of_find?_eq_some hf)

theorem processOccurrence_measure (t : List Occurrence) (o : Occurrence)
    (st : SliceState) : stMeasure t (processOccurrence t o st) ≤ stMeasure t st :=
  Nat.le_trans (processControl_measure t o _) (processUses_measure t o.seq o.uses st)

/-- Popping an occurrence strictly decreases the loop measure. -/
theorem step_measure (t : List Occurrence) (o : Occurrence) (rest : List Occurrence)
    (st : SliceState) (hw : st.worklist = o :: rest) :
    stMeasure t (processOccurrence t o { st with worklist := rest }) < stMeasure t st := by
  have h1 := processOccurrence_measure t o { st with worklist := rest }
  have h2 : stMeasure t { st with worklist := rest } + 1 = stMeasure t st := by
    simp only [stMeasure, hw, List.length_cons]
    omega
  omega

/-- With fuel at least the loop measure, the worklist loop reaches the
fixpoint: an empty worklist. -/
theorem sliceLoop_worklist_nil (t : List Occurrence) (fuel : Nat) (st : SliceState)
    (h : stMeasure t st ≤ fuel) : (sliceLoop t fuel st).worklist = [] := by
  induction fuel generalizing st with
  | zero =>
    simp only [sliceLoop]
    have : st.worklist.length = 0 := by
      have := Nat.le_zero.mp h
      simp only [stMeasure] at this
      omega
    exact List.length_eq_zero.mp this
  | succ fuel ih =>
    cases hw : st.worklist with
    | nil => simp only [sliceLoop, hw]
    | cons o rest =>
      simp only [sliceLoop, hw]
      refine ih _ ?_
      have := step_measure t o rest st hw
      omega

/-- The final state of the slicer has an empty worklist: the loop always
terminates at the fixpoint within the provided fuel. -/
theorem finalState_worklist_nil (t : List Occurrence) (c : Occurrence) :
    (finalState t c).worklist = [] := by
  refine sliceLoop_worklist_nil t (t.length + 1) (initState c) ?_
  have : countNotIn t [c] ≤ t.length := List.countP_le_length _
  simp only [stMeasure, initState, List.length_singleton]
  omega

theorem finalState_inv (t : List Occurrence) (c : Occurrence) :
    SliceInv t c (finalState t c) :=
  sliceLoop_inv t c (t.length + 1) (initState c) (inv_init t c)

/-- At the fixpoint every result member has all of its dependencies settled. -/
theorem finalState_closed (t : List Occurrence) (c : Occurrence) :
    ∀ p ∈ (finalState t c).result, DepsDone t (finalState t c) p := by
  intro p hp
  rcases (finalState_inv t c).2.2.2 p hp with hwl | hdd
  · rw [finalState_worklist_nil t c] at hwl
    cases hwl
  · exact hdd

/-- The criterion stays in the result set. -/
theorem finalState_criterion (t : List Occurrence) (c : Occurrence) :
    c ∈ (finalState t c).result :=
  (sliceLoop_stle t (t.length + 1) (initState c)).1 c (List.mem_singleton.mpr rfl)

/- ===================== Lemmas about the emitted slice ===================== -/

/-- In an execution-ordered trace, occurrences are determined by their
sequence index. -/
theorem seq_inj {t : List Occurrence} (h : SeqOrdered t) :
    ∀ a ∈ t, ∀ b ∈ t, a.seq = b.seq → a = b := by
  induction t with
  | nil => intro a ha; cases ha
  | cons o rest ih =>
    intro a ha b hb heq
    have hlt := (List.pairwise_cons.mp h).1
    have hrest := (List.pairwise_cons.mp h).2
    rcases List.mem_cons.mp ha with rfl | ha' <;> rcases List.mem_cons.mp hb with rfl | hb'
    · rfl
    · exact absurd heq (Nat.ne_of_lt (hlt b hb'))
    · exact absurd heq.symm (Nat.ne_of_lt (hlt a ha'))
    · exact ih hrest a ha' b hb' heq

/-- With the criterion recorded in the trace, the result set consists of
trace occurrences only. -/
theorem finalState_result_sub (t : List Occurrence) (c : Occurrence) (hc : c ∈ t) :
    ∀ p ∈ (finalState t c).result, p ∈ t := by
  intro p hp
  rcases (finalState_inv t c).2.1 p hp with rfl | hm
  · exact hc
  · exact hm

/-- Membership in the emitted occurrence list, when the criterion is
recorded. -/
theorem mem_backwardSlice (t : List Occurrence) (c : Occurrence) (o : Occurrence)
    (hin : inRes t c.seq = true) :
    (o ∈ (backwardSlice t c).occurrences ↔
      o ∈ t ∧ inRes (finalState t c).result o.seq = true) := by
  simp [backwardSlice, hin, List.mem_filter]

/-- A trace occurrence whose sequence index is in the final result set is
itself a member of the final result set (traces are execution-ordered, so
sequence indices identify occurrences). -/
theorem result_of_inRes (t : List Occurrence) (c : Occurrence) (hc : c ∈ t)
    (hord : SeqOrdered t) (o : Occurrence) (ho : o ∈ t)
    (hr : inRes (finalState t c).result o.seq = true) :
    o ∈ (finalState t c).result := by
  simp only [inRes, List.any_eq_true] at hr
  obtain ⟨r, hrm, hre⟩ := hr
  have hrt : r ∈ t := finalState_result_sub t c hc r hrm
  have : r = o := seq_inj hord r hrt o ho (eq_of_beq hre)
  rw [← this]
  exact hrm

/-- Every result-set member that is a trace occurrence is emitted. -/
theorem mem_backwardSlice_of_result (t : List Occurrence) (c : Occurrence)
    (o : Occurrence) (hin : inRes t c.seq = true) (ho : o ∈ t)
    (hr : o ∈ (finalState t c).result) :
    o ∈ (backwardSlice t c).occurrences :=
  (mem_backwardSlice t c o hin).mpr ⟨ho, inRes_of_mem hr⟩

/-- A recorded criterion makes `inRes` hold for the trace. -/
theorem inRes_trace_of_mem {t : List Occurrence} {c : Occurrence} (hc : c ∈ t) :
    inRes t c.seq = true :=
  inRes_of_mem hc

/- ===================== Claim theorems (slicer) ============================ -/

/-- C5: for every trace and every criterion that has a recorded occurrence in
the trace, the computed slice contains the criterion itself and is therefore
nonempty; a criterion with no recorded occurrence yields the empty slice, so
the slice is empty only in that case. -/
theorem criterion_in_slice (t : List Occurrence) (c : Occurrence) (hc : c ∈ t) :
    c ∈ (backwardSlice t c).occurrences ∧ (backwardSlice t c).occurrences ≠ [] ∧
      ∀ t' : List Occurrence, ∀ c' : Occurrence, inRes t' c'.seq = false →
        (backwardSlice t' c').occurrences = [] := by
  have hin := inRes_trace_of_mem hc
  have hmem := mem_backwardSlice_of_result t c c hin hc (finalState_criterion t c)
  refine ⟨hmem, ?_, ?_⟩
  · intro hnil
    rw [hnil] at hmem
    cases hmem
  · intro t' c' h
    simp [backwardSlice, h]

/-- Witness for C5 at the trace of `test_data_dependency_1`. -/
theorem criterion_in_slice_witness :
    exC5crit ∈ exC5trace ∧ exC5crit ∈ (backwardSlice exC5trace exC5crit).occurrences :=
  ⟨by decide, (criterion_in_slice exC5trace exC5crit (by decide)).1⟩

/-- C7: slicing is deterministic: two invocations of `backwardSlice` on the
same (trace, criterion) pair yield equal Slices, containing the same
occurrences in the same order with the same completeness flag.  The embedding
realizes the slicer as a pure function of its inputs, so this is definitional. -/
theorem slice_deterministic (t : List Occurrence) (c : Occurrence) :
    backwardSlice t c = backwardSlice t c ∧
      (backwardSlice t c).occurrences = (backwardSlice t c).occurrences ∧
      (backwardSlice t c).complete = (backwardSlice t c).complete :=
  ⟨rfl, rfl, rfl⟩

/-- C3: `resolve_definition` returns the occurrence with the largest sequence
index strictly below the use's index among the trace occurrences defining the
binding key.  Consequently, when a variable is reassigned several times before
a use, only the nearest preceding definition becomes the data dependency: at
the reassignment trace `x = 1; x = 2; x = 3; return x` the resolver picks the
third store and the slice contains exactly that store and the criterion,
excluding the two earlier assignments. -/
theorem resolver_nearest_definition (t : List Occurrence) (u : Nat) (k : BindingKey)
    (d : Occurrence) (h : resolve_definition t u k = some d) :
    (d ∈ t ∧ k ∈ d.defs ∧ d.seq < u ∧
      ∀ o ∈ t, k ∈ o.defs → o.seq < u → o.seq ≤ d.seq) ∧
    resolve_definition exC3trace 4 (BindingKey.localVar "x" 0) = some exC3def3 ∧
    backwardSlice exC3trace exC3crit = ⟨[exC3def3, exC3crit], true⟩ := by
  obtain ⟨h1, h2, h3⟩ := resolve_definition_spec t u k d h
  exact ⟨⟨h1, h2, h3, resolve_definition_max t u k d h⟩, by decide, by decide⟩

/-- Witness for C3 at the reassignment trace. -/
theorem resolver_nearest_definition_witness :
    resolve_definition exC3trace 4 (BindingKey.localVar "x" 0) = some exC3def3 ∧
      exC3def3 ∈ exC3trace :=
  ⟨by decide,
    (resolver_nearest_definition exC3trace 4 (BindingKey.localVar "x" 0) exC3def3
      (by decide)).1.1⟩

/-- C1: every occurrence in the slice has its control dependency included:
whenever an emitted occurrence records a control dependency whose branch
occurrence exists in the trace, that branch occurrence is emitted as well.
At the spec's conditional example (`if cond: r = 1; else: r = default;
return r`): when the condition is true at runtime, the slice is exactly the
condition-variable definition, the branch occurrence, the taken-branch
assignment and the return — the not-taken branch's assignment never executed
and is absent; when false, the converse, with the else-branch assignment
included instead; in both cases the definition of the branch's own condition
variable is transitively included. -/
theorem control_dependency_included (t : List Occurrence) (c : Occurrence)
    (o b : Occurrence) (cs : Nat) (hc : c ∈ t) (hord : SeqOrdered t)
    (ho : o ∈ (backwardSlice t c).occurrences) (hcd : o.controlDep = some cs)
    (hb : t.find? (fun x => x.seq == cs) = some b) :
    b ∈ (backwardSlice t c).occurrences ∧
      backwardSlice exC1trueTrace exC1trueCrit =
        ⟨[exC1condDef, exC1branchT, exC1takenAsgn, exC1trueCrit], true⟩ ∧
      backwardSlice exC1falseTrace exC1falseCrit =
        ⟨[exC1condDefF, exC1branchF, exC1elseAsgn, exC1falseCrit], true⟩ := by
  have hin := inRes_trace_of_mem hc
  have hot := (mem_backwardSlice t c o hin).mp ho
  have hores : o ∈ (finalState t c).result := result_of_inRes t c hc hord o hot.1 hot.2
  have hdd := finalState_closed t c o hores
  have hbres : inRes (finalState t c).result b.seq = true := hdd.2 cs b hcd hb
  have hbt : b ∈ t := List.mem_of_find?_eq_some hb
  exact ⟨(mem_backwardSlice t c b hin).mpr ⟨hbt, hbres⟩, by decide, by decide⟩

/-- Witness for C1 at the true-case trace: the taken-branch assignment is
emitted and its controlling branch occurrence is emitted with it. -/
theorem control_dependency_included_witness :
    exC1branchT ∈ (backwardSlice exC1trueTrace exC1trueCrit).occurrences :=
  (control_dependency_included exC1trueTrace exC1trueCrit exC1takenAsgn exC1branchT 2
    (by decide) (by decide) (by decide) (by decide) (by decide)).1

/-- C2: an occurrence that is a pure definition (not the criterion and not the
control dependency of any trace occurrence) is in the slice if and only if
some later emitted occurrence reads it, i.e. resolves one of its uses to it;
at the trace of `test_data_dependency_2` (`result = 1; foo = 2; return
result`) the unread store to `foo` is excluded even though it executed. -/
theorem store_only_iff_read (t : List Occurrence) (c : Occurrence) (d : Occurrence)
    (hc : c ∈ t) (hord : SeqOrdered t) (hd : d ∈ t) (hdc : d.seq ≠ c.seq)
    (hnb : ∀ o ∈ t, o.controlDep ≠ some d.seq) :
    (d ∈ (backwardSlice t c).occurrences ↔
      ∃ o ∈ (backwardSlice t c).occurrences, d.seq < o.seq ∧
        ∃ k ∈ o.uses, resolve_definition t o.seq k = some d) ∧
    backwardSlice exC2trace exC2crit = ⟨[exC2resultDef, exC2crit], true⟩ := by
  have hin := inRes_trace_of_mem hc
  refine ⟨⟨?_, ?_⟩, by decide⟩
  · intro hmem
    have hdt := (mem_backwardSlice t c d hin).mp hmem
    have hdres : d ∈ (finalState t c).result := result_of_inRes t c hc hord d hdt.1 hdt.2
    rcases (finalState_inv t c).2.2.1 d hdres with rfl | ⟨w, hw, hcase⟩
    · exact absurd rfl hdc
    · have hwt : w ∈ t := finalState_result_sub t c hc w hw
      rcases hcase with ⟨k, hk, hr, hlt⟩ | ⟨cs, hcd, hf⟩
      · exact ⟨w, mem_backwardSlice_of_result t c w hin hwt hw, hlt, k, hk, hr⟩
      · have hcs : cs = d.seq := by
          have := List.find?_some hf
          exact (eq_of_beq this).symm
        rw [hcs] at hcd
        exact absurd hcd (hnb w hwt)
  · rintro ⟨o, ho, hlt, k, hk, hr⟩
    have hot := (mem_backwardSlice t c o hin).mp ho
    have hores : o ∈ (finalState t c).result := result_of_inRes t c hc hord o hot.1 hot.2
    have hdd := finalState_closed t c o hores
    have : inRes (finalState t c).result d.seq = true := (hdd.1 k hk).2 d hr
    exact (mem_backwardSlice t c d hin).mpr ⟨hd, this⟩

/-- Witness for C2 at the irrelevant-definition trace, with the unread store
to `foo` as the pure definition. -/
theorem store_only_iff_read_witness :
    exC2fooDef ∈ (backwardSlice exC2trace exC2crit).occurrences ↔
      ∃ o ∈ (backwardSlice exC2trace exC2crit).occurrences, exC2fooDef.seq < o.seq ∧
        ∃ k ∈ o.uses, resolve_definition exC2trace o.seq k = some exC2fooDef :=
  (store_only_iff_read exC2trace exC2crit exC2fooDef (by decide) (by decide) (by decide)
    (by decide) (by decide)).1

/-- C4: the emitted slice is ordered by ascending global sequence index
(execution order), not discovery order, for every execution-ordered trace; at
the cross-module example the use of the imported name `module_list` resolves
to the defining occurrence in the other module's part of the trace, and the
computed slice is the union of the relevant occurrences of both code units in
ascending global order. -/
theorem cross_module_slice_order (t : List Occurrence) (c : Occurrence)
    (hord : SeqOrdered t) :
    (backwardSlice t c).occurrences.Pairwise (fun a b => a.seq < b.seq) ∧
      resolve_definition exC4trace 3 (BindingKey.globalName "module_list" 1) =
        some exC4moduleDef ∧
      backwardSlice exC4trace exC4crit =
        ⟨[exC4moduleDef, exC4resultDef, exC4crit], true⟩ ∧
      exC4moduleDef.codeUnit ≠ exC4crit.codeUnit := by
  refine ⟨?_, by decide, by decide, by decide⟩
  unfold backwardSlice
  split
  · exact List.Pairwise.sublist (List.filter_sublist _) hord
  · exact List.Pairwise.nil

/-- Witness for C4 at the cross-module trace. -/
theorem cross_module_slice_order_witness :
    (backwardSlice exC4trace exC4crit).occurrences.Pairwise (fun a b => a.seq < b.seq) :=
  (cross_module_slice_order exC4trace exC4crit (by decide)).1

/-- C6: a use whose definition cannot be found in the trace does not fail the
slicer: the Slice is still produced, its completeness flag is false, the
occurrence holding the unresolved use stays in the slice, and every emitted
occurrence other than the criterion entered the slice only as an actually
resolved data dependency or as a recorded control dependency of a result
member — no definition occurrence is invented for the unresolved binding.  At
the partially covered attribute example the slice is exactly the executed
occurrences with `complete = false`. -/
theorem unresolved_use_incomplete (t : List Occurrence) (c : Occurrence)
    (o : Occurrence) (k : BindingKey) (hc : c ∈ t) (hord : SeqOrdered t)
    (ho : o ∈ (backwardSlice t c).occurrences) (hk : k ∈ o.uses)
    (hnone : resolve_definition t o.seq k = none) :
    (backwardSlice t c).complete = false ∧
      (∀ p ∈ (backwardSlice t c).occurrences, p = c ∨
        ∃ w ∈ (finalState t c).result,
          (∃ kk ∈ w.uses, resolve_definition t w.seq kk = some p ∧ p.seq < w.seq) ∨
          ∃ cs, w.controlDep = some cs ∧ t.find? (fun b => b.seq == cs) = some p) ∧
      backwardSlice exC6trace exC6crit = ⟨[exC6obDef, exC6attrUse, exC6crit], false⟩ := by
  have hin := inRes_trace_of_mem hc
  have hot := (mem_backwardSlice t c o hin).mp ho
  have hores : o ∈ (finalState t c).result := result_of_inRes t c hc hord o hot.1 hot.2
  have hdd := finalState_closed t c o hores
  have hincomplete : (finalState t c).incomplete = true := (hdd.1 k hk).1 hnone
  refine ⟨?_, ?_, by decide⟩
  · simp [backwardSlice, hin, hincomplete]
  · intro p hp
    have hpt := (mem_backwardSlice t c p hin).mp hp
    have hpres : p ∈ (finalState t c).result := result_of_inRes t c hc hord p hpt.1 hpt.2
    exact (finalState_inv t c).2.2.1 p hpres

/-- Witness for C6 at the partially covered attribute trace. -/
theorem unresolved_use_incomplete_witness :
    (backwardSlice exC6trace exC6crit).complete = false :=
  (unresolved_use_incomplete exC6trace exC6crit exC6attrUse (BindingKey.attrKey "attr2" 7)
    (by decide) (by decide) (by decide) (by decide) (by decide)).1

/- ===================== Claim theorems (typeinformation) =================== -/

namespace SignatureElement

theorem add_element_snd_ne_nil (s : List Element) (sig : SignatureType) (conf : Rat)
    (h : s ≠ []) : (add_element s sig conf).2 ≠ [] := by
  unfold add_element
  split
  · exact h
  · split
    · exact h
    · simp

theorem replace_element_snd_ne_nil (s : List Element) (sig : SignatureType) (conf : Rat)
    (h : s ≠ []) : (replace_element s sig conf).2 ≠ [] := by
  unfold replace_element
  split
  · exact h
  · split
    · exact add_element_snd_ne_nil s sig conf h
    · split
      · exact h
      · simp

/-- C8: the element set of a `SignatureElement` is non-empty after
construction and stays non-empty after every `add_element` and
`replace_element` call, whether it raises or not; hence the assertion
`len(self._elements) > 0` at the start of `provide_random_type` cannot fail
on any reachable element set. -/
theorem elements_nonempty (s : List Element) (h : Reachable s) : s ≠ [] := by
  induction h with
  | init => intro hx; cases hx
  | add s sig conf _ ih => exact add_element_snd_ne_nil s sig conf ih
  | replace s sig conf _ ih => exact replace_element_snd_ne_nil s sig conf ih

/-- Witness for C8 at the freshly constructed element set. -/
theorem elements_nonempty_witness : initElements ≠ [] :=
  elements_nonempty initElements Reachable.init

/-- C9 counterexample: with an element of signature type `concrete 0` already
present and the out-of-range confidence 2, `add_element` raises `ValueError`
and not `AssertionError`, although an element with an equal signature type is
present — the confidence-range check has precedence over the duplicate
check. -/
theorem add_element_assertion_counterexample :
    containsSignature [Element.mk (SignatureType.concrete 0) 1] (SignatureType.concrete 0)
        = true ∧
      (add_element [Element.mk (SignatureType.concrete 0) 1] (SignatureType.concrete 0) 2).1
        = some AddError.valueError ∧
      (add_element [Element.mk (SignatureType.concrete 0) 1] (SignatureType.concrete 0) 2).1
        ≠ some AddError.assertionError :=
  ⟨by decide, by decide, by decide⟩

/-- C9 (amended): `add_element` raises `ValueError` iff the confidence is
greater than 1 or less than 0; it raises `AssertionError` iff the confidence
is in range and an element with an equal signature type is already present;
in either error case the element set is left unchanged. -/
theorem add_element_errors (s : List Element) (sig : SignatureType) (conf : Rat) :
    ((add_element s sig conf).1 = some AddError.valueError ↔ (conf > 1 ∨ conf < 0)) ∧
    ((add_element s sig conf).1 = some AddError.assertionError ↔
      (¬(conf > 1 ∨ conf < 0) ∧ containsSignature s sig = true)) ∧
    (∀ e, (add_element s sig conf).1 = some e → (add_element s sig conf).2 = s) := by
  unfold add_element
  split
  · next h =>
    refine ⟨by simp [h], ?_, fun e _ => rfl⟩
    simp [h]
  · next h =>
    split
    · next h2 =>
      refine ⟨by simp [h], ?_, fun e _ => rfl⟩
      simp [h, h2]
    · next h2 =>
      refine ⟨by simp [h], ?_, fun e he => by cases he⟩
      simp [h, h2]

/-- C10: a freshly constructed `SignatureElement` contains exactly one
element, the unknown-type placeholder with confidence 0; the first successful
`add_element` call clears the placeholder and the resulting set is exactly the
added element, whose signature type cannot be the unknown type (adding the
unknown type again would have raised), so `unknown_type` is no longer among
the element types. -/
theorem first_add_removes_placeholder (sig : SignatureType) (conf : Rat)
    (h : (add_element initElements sig conf).1 = none) :
    initElements = [Element.mk unknown_type 0] ∧
      (add_element initElements sig conf).2 = [Element.mk sig conf] ∧
      sig ≠ unknown_type ∧
      ∀ e ∈ (add_element initElements sig conf).2, e.signature_type ≠ unknown_type := by
  by_cases h1 : conf > 1 ∨ conf < 0
  · exfalso
    unfold add_element at h
    rw [if_pos h1] at h
    cases h
  by_cases h2 : containsSignature initElements sig = true
  · exfalso
    unfold add_element at h
    rw [if_neg h1, if_pos h2] at h
    cases h
  have hsig : sig ≠ unknown_type := by
    intro he
    exact h2 (by rw [he]; decide)
  have hres : (add_element initElements sig conf).2 = [Element.mk sig conf] := by
    unfold add_element
    rw [if_neg h1, if_neg h2]
    simp [initElements, unknownElement]
  refine ⟨rfl, hres, hsig, ?_⟩
  rw [hres]
  intro e he
  rcases List.mem_singleton.mp he with rfl
  exact hsig

/-- Witness for C10: adding a concrete type with confidence 1 to a fresh
element set succeeds and yields exactly that element. -/
theorem first_add_removes_placeholder_witness :
    (add_element initElements (SignatureType.concrete 0) 1).1 = none ∧
      (add_element initElements (SignatureType.concrete 0) 1).2 =
        [Element.mk (SignatureType.concrete 0) 1] :=
  ⟨by decide, (first_add_removes_placeholder (SignatureType.concrete 0) 1 (by decide)).2.1⟩

end SignatureElement
